import Mathlib

/-!
Verification of `visualize_string_frequencies.py`: a batch pipeline that
loads a CSV table of string-frequency observations and produces a heatmap,
per-iteration histograms, a rank-evolution plot and a text summary.

The table is embedded shallowly as a `List Row`; the pandas aggregations
used by the four generators (groupby/max, nlargest, pivot_table with mean
aggregation and 0 fill, nsmallest, per-group row counts) are translated
into executable Lean definitions below, each annotated with the source
line it embeds.  Frequencies, ranks and the per-iteration counters are
integers in the data; `time_sec` is a float in the source, modelled here
as an integer timestamp since no verified property computes with its
value.
-/

/-- One observation row of the loaded table, with the eight columns the
script reads: `iteration`, `string`, `frequency`, `rank`, `unique_strings`,
`total_extracted`, `elite_size`, `time_sec`. -/
structure Row where
  iteration : Int
  string : String
  frequency : Int
  rank : Int
  unique_strings : Int
  total_extracted : Int
  elite_size : Int
  time_sec : Int
deriving DecidableEq, Repr

/-- Maximum of a list of integers, with pandas `max()` semantics on a
nonempty column; the `[]` case returns a junk value `0` and is only ever
used under a nonemptiness hypothesis. -/
def listMaxD (l : List Int) : Int :=
  match l with
  | [] => 0
  | x :: xs => xs.foldl max x

/-- Minimum of a list of integers, dual to `listMaxD`. -/
def listMinD (l : List Int) : Int :=
  match l with
  | [] => 0
  | x :: xs => xs.foldl min x

/-- Descending order on `Int`, the sort key for pandas `nlargest` and for
ordering the pivot rows by maximum frequency. -/
def intGE (a b : Int) : Prop := b ≤ a

instance : DecidableRel intGE := fun a b => inferInstanceAs (Decidable (b ≤ a))

instance : IsTotal Int intGE := ⟨fun a b => le_total b a⟩

instance : IsTrans Int intGE := ⟨fun _ _ _ hab hbc => le_trans hbc hab⟩

instance : IsAntisymm Int intGE := ⟨fun _ _ h h' => le_antisymm h' h⟩

/-- Python slicing `l[::step]`: the elements whose index is divisible by
`step` (`create_histogram`, line 104: `iterations[::step]`). -/
def takeEvery (step : Nat) (l : List α) : List α :=
  (l.enum.filter (fun p => p.1 % step == 0)).map Prod.snd

/-- `sorted(df['iteration'].unique())` (`create_histogram`, line 100):
the distinct iteration values in ascending order. -/
def distinctIterations (df : List Row) : List Int :=
  List.insertionSort (· ≤ ·) (df.map Row.iteration).dedup

/-- `step = max(1, len(iterations) // 12)` (`create_histogram`, line 103). -/
def histStep (df : List Row) : Nat :=
  max 1 ((distinctIterations df).length / 12)

/-- `selected_iterations = iterations[::step]` (`create_histogram`, line 104). -/
def selectedIterations (df : List Row) : List Int :=
  takeEvery (histStep df) (distinctIterations df)

/-- Lexicographic comparison of character lists by code point, the order
pandas uses to sort string group keys. -/
def charListLE : List Char → List Char → Bool
  | [], _ => true
  | _ :: _, [] => false
  | c :: cs, d :: ds =>
    if c.toNat < d.toNat then true
    else if d.toNat < c.toNat then false
    else charListLE cs ds

/-- Lexicographic order on strings by code point. -/
def stringLE (a b : String) : Prop := charListLE a.data b.data = true

instance (a b : String) : Decidable (stringLE a b) :=
  inferInstanceAs (Decidable (_ = true))

/-- The distinct string keys of the table in lexicographic order: the index
of any pandas `df.groupby('string')` aggregation (lines 39, 176, 265). -/
def groupStrings (df : List Row) : List String :=
  List.insertionSort stringLE (df.map Row.string).dedup

/-- `df.groupby('string')['frequency'].max()` evaluated at key `s`
(lines 39 and 176): the maximum frequency the string attains over its own
rows.  Only applied to strings that occur in `df`, where the filtered
column is nonempty. -/
def maxFreq (df : List Row) (s : String) : Int :=
  listMaxD ((df.filter (fun r => decide (r.string = s))).map Row.frequency)

/-- Descending order on string keys by their maximum frequency: the sort
order underlying `nlargest(top_n)` on the per-string maxima. -/
def freqGE (df : List Row) (a b : String) : Prop :=
  maxFreq df b ≤ maxFreq df a

instance (df : List Row) : DecidableRel (freqGE df) :=
  fun a b => inferInstanceAs (Decidable (maxFreq df b ≤ maxFreq df a))

instance (df : List Row) : IsTotal String (freqGE df) :=
  ⟨fun a b => le_total (maxFreq df b) (maxFreq df a)⟩

instance (df : List Row) : IsTrans String (freqGE df) :=
  ⟨fun _ _ _ hab hbc => le_trans hbc hab⟩

/-- `df.groupby('string')['frequency'].max().nlargest(top_n).index.tolist()`
(lines 39-40 and 176-177): the keys of the `n` largest per-string maxima,
obtained by stably sorting the distinct keys in descending order of
maximum frequency and keeping the first `n`. -/
def topStrings (df : List Row) (n : Nat) : List String :=
  (List.insertionSort (freqGE df) (groupStrings df)).take n

/-- The per-string maximum-frequency values of the table, sorted in
descending order: "the Nth-largest max-frequency value in the table" is
entry `n - 1` of this list. -/
def sortedMaxFreqs (df : List Row) : List Int :=
  List.insertionSort intGE ((groupStrings df).map (maxFreq df))

/-- `df[df['string'].isin(top_strings)].copy()` (lines 43 and 180): the
rows of the table whose string key is among the top-`n` strings. -/
def topFilter (df : List Row) (n : Nat) : List Row :=
  df.filter (fun r => decide (r.string ∈ topStrings df n))

/-- The strings that index the rows of the pivot matrix: the distinct
string keys of the filtered table (line 47). -/
def pivotRowStrings (dfTop : List Row) : List String :=
  (dfTop.map Row.string).dedup

/-- The iterations that index the columns of the pivot matrix: the distinct
iteration values of the filtered table (line 48). -/
def pivotColIterations (dfTop : List Row) : List Int :=
  (dfTop.map Row.iteration).dedup

/-- The frequency column of the rows of the filtered table matching the
pair `(s, i)`: the multiset `pivot_table` aggregates into one cell. -/
def pivotFreqs (dfTop : List Row) (s : String) (i : Int) : List Int :=
  (dfTop.filter (fun r => decide (r.string = s ∧ r.iteration = i))).map Row.frequency

/-- One cell of `df_top.pivot_table(index='string', columns='iteration',
values='frequency', fill_value=0)` (lines 46-51).  `pivot_table`'s default
aggregation is the mean, so a cell holds the mean of the frequencies of
the rows matching `(s, i)`, and `0` when no row matches (`fill_value=0`). -/
def pivotCell (dfTop : List Row) (s : String) (i : Int) : ℚ :=
  if pivotFreqs dfTop s i = [] then 0
  else ((pivotFreqs dfTop s i).map (fun q : Int => (q : ℚ))).sum /
    ((pivotFreqs dfTop s i).length : ℚ)

/-- `final_iter = df['iteration'].max()` (line 237). -/
def finalIteration (df : List Row) : Int :=
  listMaxD (df.map Row.iteration)

/-- `final_data = df[df['iteration'] == final_iter]` (line 238). -/
def finalData (df : List Row) : List Row :=
  df.filter (fun r => decide (r.iteration = finalIteration df))

/-- Ascending order on rows by their rank column, the sort key of
`nsmallest(20, 'rank')`. -/
def rankLE (a b : Row) : Prop := a.rank ≤ b.rank

instance : DecidableRel rankLE := fun a b => inferInstanceAs (Decidable (a.rank ≤ b.rank))

instance : IsTotal Row rankLE := ⟨fun a b => le_total a.rank b.rank⟩

instance : IsTrans Row rankLE := ⟨fun _ _ _ hab hbc => le_trans hab hbc⟩

/-- `top20 = final_data.nsmallest(20, 'rank')` (line 253): the first 20
rows of the final-iteration data stably sorted by ascending rank. -/
def top20 (df : List Row) : List Row :=
  (List.insertionSort rankLE (finalData df)).take 20

/-- `total_freq = final_data['frequency'].sum() if len(final_data) > 0
else 1` (line 254). -/
def totalFreq (df : List Row) : Int :=
  if 0 < (finalData df).length then ((finalData df).map Row.frequency).sum else 1

/-- The final iteration's total frequency sum, the quantity the spec calls
"that iteration's total frequency sum". -/
def sumFreqFinal (df : List Row) : Int :=
  ((finalData df).map Row.frequency).sum

/-- `pct = (row['frequency'] / total_freq * 100) if total_freq > 0 else 0`
(line 257), over the exact rationals. -/
def pctOf (df : List Row) (r : Row) : ℚ :=
  if 0 < totalFreq df then (r.frequency : ℚ) / (totalFreq df : ℚ) * 100 else 0

/-- `max_appearances = df['iteration'].nunique()` (line 266): the number of
distinct iteration values. -/
def nSnapshots (df : List Row) : Nat :=
  (df.map Row.iteration).dedup.length

/-- `df.groupby('string')['iteration'].count()` evaluated at key `s`
(line 265): the number of rows of the table carrying string `s`. -/
def rowCountOf (df : List Row) (s : String) : Nat :=
  ((df.filter (fun r => decide (r.string = s)))).length

/-- `len(persistent_strings)` (lines 267-269): the number of distinct
string keys whose row count equals the distinct-iteration count. -/
def persistentCount (df : List Row) : Nat :=
  ((groupStrings df).filter (fun s => decide (rowCountOf df s = nSnapshots df))).length

/-- Whether some row of the table carries string `s` at iteration `i`. -/
def appearsAt (df : List Row) (s : String) (i : Int) : Bool :=
  df.any (fun r => decide (r.string = s ∧ r.iteration = i))

/-- The count the spec attributes to the persistence analysis: the number
of distinct string keys present in every distinct iteration of the table
("appearing in every logged snapshot").  Stated from the spec's words, to
be compared with `persistentCount`, which embeds the code. -/
def inEveryIterationCount (df : List Row) : Nat :=
  ((groupStrings df).filter
    (fun s => (df.map Row.iteration).dedup.all (fun i => appearsAt df s i))).length

/-- Result of one CLI invocation of `main` (lines 282-321): the process
exit code, which of the two diagnostic messages were printed, and how many
of the four generators ran to completion. -/
structure CliResult where
  exitCode : Nat
  usageShown : Bool
  errorShown : Bool
  generatorsRun : Nat
deriving DecidableEq, Repr

/-- `main()` (lines 282-321), with `sys.argv` passed explicitly and
`os.path.exists` abstracted as a predicate: fewer than two argv entries
prints the usage text and exits 1; a missing input path prints the error
text and exits 1; otherwise the four generators run and the process ends
normally with exit code 0. -/
def runMain (argv : List String) (pathExists : String → Bool) : CliResult :=
  if argv.length < 2 then ⟨1, true, false, 0⟩
  else if pathExists (argv.getD 1 "") = false then ⟨1, false, true, 0⟩
  else ⟨0, false, false, 4⟩

/-- Ascending order on rows by iteration (`sort_values('iteration')`,
line 189). -/
def iterLE (a b : Row) : Prop := a.iteration ≤ b.iteration

instance : DecidableRel iterLE := fun a b => inferInstanceAs (Decidable (a.iteration ≤ b.iteration))

/-- `create_heatmap` (lines 27-87) as a state-passing function: the first
component is the rendered artifact (per string, the frequency cell of each
iteration column), the second the table binding after the call.  The
source reads `df`, builds a filtered copy `df_top = df[...].copy()` and a
pivot from it, and never assigns into `df`. -/
def create_heatmap (df : List Row) (top_n : Nat) : (List (String × List (Int × ℚ))) × List Row :=
  (((pivotRowStrings (topFilter df top_n))).map
    (fun s => (s, (pivotColIterations (topFilter df top_n)).map
      (fun i => (i, pivotCell (topFilter df top_n) s i)))), df)

/-- `create_histogram` (lines 89-162) as a state-passing function: per
sampled iteration, the frequency values whose distribution is plotted. -/
def create_histogram (df : List Row) : (List (Int × List Int)) × List Row :=
  ((selectedIterations df).map
    (fun i => (i, (df.filter (fun r => decide (r.iteration = i))).map Row.frequency)), df)

/-- `create_rank_evolution` (lines 164-208) as a state-passing function:
per top string, its (iteration, rank) line sorted by iteration. -/
def create_rank_evolution (df : List Row) (top_n : Nat) :
    (List (String × List (Int × Int))) × List Row :=
  ((topStrings df top_n).map
    (fun s => (s, (List.insertionSort iterLE
      ((topFilter df top_n).filter (fun r => decide (r.string = s)))).map
        (fun r => (r.iteration, r.rank)))), df)

/-- The contents of `summary_stats.txt` that the verified claims mention
(lines 210-280). -/
structure Summary where
  total_iterations : Int
  total_snapshots : Nat
  unique_strings_observed : Nat
  top20_rows : List (Int × String × Int × ℚ)
  persistent_count : Nat
deriving Repr

/-- `create_summary_stats` (lines 210-280) as a state-passing function. -/
def create_summary_stats (df : List Row) : Summary × List Row :=
  (⟨finalIteration df, nSnapshots df, (df.map Row.string).dedup.length,
    (top20 df).map (fun r => (r.rank, r.string, r.frequency, pctOf df r)),
    persistentCount df⟩, df)

/-- A small concrete table used to witness the verified properties: two
strings over two iterations, one row per (string, iteration) pair. -/
def sampleTable : List Row :=
  [⟨1, "a", 5, 1, 7, 9, 3, 2⟩, ⟨1, "b", 3, 2, 7, 9, 3, 2⟩, ⟨2, "a", 6, 1, 4, 8, 3, 5⟩]

/-- A table with 13 distinct iterations, one row each. -/
def thirteenIterTable : List Row :=
  (List.range 13).map (fun k => ⟨(k : Int) + 1, "s", 1, 1, 1, 1, 1, 0⟩)

/-- A table with 24 distinct iterations, one row each. -/
def twentyFourIterTable : List Row :=
  (List.range 24).map (fun k => ⟨(k : Int) + 1, "s", 1, 1, 1, 1, 1, 0⟩)

/-- A table holding two rows for the pair `("s", 1)` with different
frequencies 2 and 4. -/
def conflictingDupTable : List Row :=
  [⟨1, "s", 2, 1, 1, 1, 1, 0⟩, ⟨1, "s", 4, 2, 1, 1, 1, 0⟩]

/-- A table where string `"s"` has two rows at iteration 1 and none at
iteration 2, while `"t"` has one row at iteration 2. -/
def doubledRowTable : List Row :=
  [⟨1, "s", 1, 1, 1, 1, 1, 0⟩, ⟨1, "s", 1, 2, 1, 1, 1, 0⟩, ⟨2, "t", 1, 1, 1, 1, 1, 0⟩]

/-! ## Helper lemmas -/

theorem foldl_max_mem (xs : List Int) (a : Int) :
    xs.foldl max a = a ∨ xs.foldl max a ∈ xs := by
  induction xs generalizing a with
  | nil => exact Or.inl rfl
  | cons x xs ih =>
    rcases ih (max a x) with h | h
    · rcases max_choice a x with h' | h'
      · exact Or.inl (by rw [List.foldl_cons, h, h'])
      · exact Or.inr (by rw [List.foldl_cons, h, h']; exact List.mem_cons_self _ _)
    · exact Or.inr (List.mem_cons_of_mem _ h)

theorem le_foldl_max (xs : List Int) (a : Int) :
    a ≤ xs.foldl max a ∧ ∀ x ∈ xs, x ≤ xs.foldl max a := by
  induction xs generalizing a with
  | nil => exact ⟨le_refl a, by simp⟩
  | cons x xs ih =>
    refine ⟨le_trans (le_max_left a x) (ih (max a x)).1, ?_⟩
    intro y hy
    rcases List.mem_cons.mp hy with h | h
    · subst h
      exact le_trans (le_max_right a y) (ih (max a y)).1
    · exact (ih (max a x)).2 y h

theorem listMaxD_mem {l : List Int} (h : l ≠ []) : listMaxD l ∈ l := by
  cases l with
  | nil => exact absurd rfl h
  | cons x xs =>
    rcases foldl_max_mem xs x with h' | h'
    · rw [listMaxD, h']; exact List.mem_cons_self _ _
    · exact List.mem_cons_of_mem _ h'

theorem le_listMaxD {l : List Int} {x : Int} (hx : x ∈ l) : x ≤ listMaxD l := by
  cases l with
  | nil => exact absurd hx (List.not_mem_nil x)
  | cons y ys =>
    rcases List.mem_cons.mp hx with h | h
    · subst h; exact (le_foldl_max ys x).1
    · exact (le_foldl_max ys y).2 x h

theorem foldl_min_mem (xs : List Int) (a : Int) :
    xs.foldl min a = a ∨ xs.foldl min a ∈ xs := by
  induction xs generalizing a with
  | nil => exact Or.inl rfl
  | cons x xs ih =>
    rcases ih (min a x) with h | h
    · rcases min_choice a x with h' | h'
      · exact Or.inl (by rw [List.foldl_cons, h, h'])
      · exact Or.inr (by rw [List.foldl_cons, h, h']; exact List.mem_cons_self _ _)
    · exact Or.inr (List.mem_cons_of_mem _ h)

theorem foldl_min_le (xs : List Int) (a : Int) :
    xs.foldl min a ≤ a ∧ ∀ x ∈ xs, xs.foldl min a ≤ x := by
  induction xs generalizing a with
  | nil => exact ⟨le_refl a, by simp⟩
  | cons x xs ih =>
    refine ⟨le_trans (ih (min a x)).1 (min_le_left a x), ?_⟩
    intro y hy
    rcases List.mem_cons.mp hy with h | h
    · subst h
      exact le_trans (ih (min a y)).1 (min_le_right a y)
    · exact (ih (min a x)).2 y h

theorem listMinD_mem {l : List Int} (h : l ≠ []) : listMinD l ∈ l := by
  cases l with
  | nil => exact absurd rfl h
  | cons x xs =>
    rcases foldl_min_mem xs x with h' | h'
    · rw [listMinD, h']; exact List.mem_cons_self _ _
    · exact List.mem_cons_of_mem _ h'

theorem listMinD_le {l : List Int} {x : Int} (hx : x ∈ l) : listMinD l ≤ x := by
  cases l with
  | nil => exact absurd hx (List.not_mem_nil x)
  | cons y ys =>
    rcases List.mem_cons.mp hx with h | h
    · subst h; exact (foldl_min_le ys x).1
    · exact (foldl_min_le ys y).2 x h

theorem takeEvery_subset (step : Nat) (l : List α) : takeEvery step l ⊆ l := by
  intro x hx
  rw [takeEvery] at hx
  rcases List.mem_map.mp hx with ⟨p, hp, hpx⟩
  have hp' : p ∈ l.enum := List.mem_of_mem_filter hp
  have := List.mem_enum_iff_getElem?.mp hp'
  subst hpx
  exact List.mem_iff_getElem?.mpr ⟨p.1, this⟩

theorem head_mem_takeEvery (step : Nat) (x : α) (xs : List α) :
    x ∈ takeEvery step (x :: xs) := by
  rw [takeEvery, List.enum_cons, List.filter_cons]
  simp

theorem finalIteration_mem {df : List Row} (h : df ≠ []) :
    finalIteration df ∈ df.map Row.iteration := by
  apply listMaxD_mem
  simpa using h

theorem finalData_ne_nil {df : List Row} (h : df ≠ []) : finalData df ≠ [] := by
  rcases List.mem_map.mp (finalIteration_mem h) with ⟨r, hr, hri⟩
  apply List.ne_nil_of_mem (a := r)
  rw [finalData, List.mem_filter]
  exact ⟨hr, by simp [hri]⟩

/-! ## Claim theorems -/

/-- C1: the histogram generator's subsampling is claimed to select at most
12 iterations, and the code's own comment says "max 12 snapshots to keep
readable"; but on a table with 13 distinct iterations the stride is
`max(1, 13 // 12) = 1` and all 13 iterations are selected. -/
theorem histogram_subsample_exceeds_twelve :
    (selectedIterations thirteenIterTable).length = 13 ∧
      12 < (selectedIterations thirteenIterTable).length := by
  constructor <;> decide

/-- C7: the CLI exits 1 with the usage message when the positional argument
is absent, exits 1 with the error message when the input path does not
exist, and otherwise exits 0 after running all four generators. -/
theorem cli_exit_codes (argv : List String) (pathExists : String → Bool) :
    (argv.length < 2 → runMain argv pathExists = ⟨1, true, false, 0⟩) ∧
      (2 ≤ argv.length → pathExists (argv.getD 1 "") = false →
        runMain argv pathExists = ⟨1, false, true, 0⟩) ∧
      (2 ≤ argv.length → pathExists (argv.getD 1 "") = true →
        runMain argv pathExists = ⟨0, false, false, 4⟩) := by
  refine ⟨fun h => ?_, fun h h' => ?_, fun h h' => ?_⟩
  · rw [runMain, if_pos h]
  · rw [runMain, if_neg (by omega), if_pos h']
  · rw [runMain, if_neg (by omega),
      if_neg (fun hf => by rw [h'] at hf; exact Bool.noConfusion hf)]

theorem cli_exit_codes_witness :
    runMain ["prog"] (fun _ => true) = ⟨1, true, false, 0⟩ ∧
      runMain ["prog", "data.csv"] (fun _ => false) = ⟨1, false, true, 0⟩ ∧
      runMain ["prog", "data.csv"] (fun _ => true) = ⟨0, false, false, 4⟩ :=
  ⟨(cli_exit_codes ["prog"] (fun _ => true)).1 (by decide),
    (cli_exit_codes ["prog", "data.csv"] (fun _ => false)).2.1 (by decide) rfl,
    (cli_exit_codes ["prog", "data.csv"] (fun _ => true)).2.2 (by decide) rfl⟩

/-- C8: each of the four generators is a pure function of the loaded
table; in the state-passing embedding the table component after any
generator call is the table it was handed (the source only ever builds
filtered copies and never assigns into `df`). -/
theorem generators_preserve_table (df : List Row) :
    (create_heatmap df 30).2 = df ∧ (create_histogram df).2 = df ∧
      (create_rank_evolution df 15).2 = df ∧ (create_summary_stats df).2 = df :=
  ⟨rfl, rfl, rfl, rfl⟩

/-- C9: whenever a per-iteration sub-table is selected with an iteration
value drawn from the table's own iteration column — the final iteration in
the summary generator (line 238) or a sampled iteration in the histogram
generator (line 122) — the sub-table is non-empty, so the first-row
accesses are well-defined and the `len(iter_data) > 0` fallbacks never
fire. -/
theorem subtable_selection_nonempty (df : List Row) (h : df ≠ []) :
    finalData df ≠ [] ∧
      ∀ i ∈ selectedIterations df,
        df.filter (fun r => decide (r.iteration = i)) ≠ [] := by
  refine ⟨finalData_ne_nil h, ?_⟩
  intro i hi
  have hsub : i ∈ distinctIterations df := takeEvery_subset _ _ hi
  rw [distinctIterations, List.mem_insertionSort, List.mem_dedup] at hsub
  rcases List.mem_map.mp hsub with ⟨r, hr, hri⟩
  exact List.ne_nil_of_mem (List.mem_filter.mpr ⟨hr, by simp [hri]⟩)

theorem subtable_selection_nonempty_witness :
    finalData sampleTable ≠ [] ∧
      sampleTable.filter (fun r => decide (r.iteration = 1)) ≠ [] :=
  ⟨(subtable_selection_nonempty sampleTable (by decide)).1,
    (subtable_selection_nonempty sampleTable (by decide)).2 1 (by decide)⟩

/-- C10: the histogram generator's sampled iterations always contain the
smallest iteration value of the table (the stride-based slice keeps index
0 of the ascending sorted distinct iterations), while the largest value is
not necessarily included: with 24 distinct iterations the stride is 2 and
the last (odd) index is dropped. -/
theorem histogram_sample_has_min_not_max :
    (∀ df : List Row, df ≠ [] →
        listMinD (df.map Row.iteration) ∈ selectedIterations df) ∧
      (∃ df : List Row, df ≠ [] ∧
        listMaxD (df.map Row.iteration) ∉ selectedIterations df) := by
  constructor
  · intro df h
    have hmem : listMinD (df.map Row.iteration) ∈ distinctIterations df := by
      rw [distinctIterations, List.mem_insertionSort, List.mem_dedup]
      exact listMinD_mem (by simpa using h)
    rcases hd : distinctIterations df with _ | ⟨x, xs⟩
    · rw [hd] at hmem
      exact absurd hmem (List.not_mem_nil _)
    · have hsorted : (distinctIterations df).Sorted (· ≤ ·) :=
        List.sorted_insertionSort _ _
      have hxmem : x ∈ df.map Row.iteration := by
        have : x ∈ distinctIterations df := by rw [hd]; exact List.mem_cons_self _ _
        rw [distinctIterations, List.mem_insertionSort, List.mem_dedup] at this
        exact this
      have hle : listMinD (df.map Row.iteration) ≤ x := listMinD_le hxmem
      have hge : x ≤ listMinD (df.map Row.iteration) := by
        rw [hd] at hmem
        rcases List.mem_cons.mp hmem with h' | h'
        · exact le_of_eq h'.symm
        · rw [hd] at hsorted
          exact (List.sorted_cons.mp hsorted).1 _ h'
      have hx : listMinD (df.map Row.iteration) = x := le_antisymm hle hge
      rw [selectedIterations, hd, hx]
      exact head_mem_takeEvery _ _ _
  · exact ⟨twentyFourIterTable, by decide, by decide⟩

theorem histogram_sample_has_min_witness :
    listMinD (sampleTable.map Row.iteration) ∈ selectedIterations sampleTable :=
  histogram_sample_has_min_not_max.1 sampleTable (by decide)

/-- C5: the summary's top-20 table for the final iteration
(`final_data.nsmallest(20, 'rank')`, line 253) lists exactly
`min(20, rows at the final iteration)` rows, and the listed rank values
are non-decreasing from first to last row. -/
theorem summary_top20_shape (df : List Row) (h : df ≠ []) :
    (top20 df).length = min 20 (finalData df).length ∧
      ((top20 df).map Row.rank).Sorted (· ≤ ·) := by
  constructor
  · rw [top20, List.length_take, List.length_insertionSort]
  · have hs : (List.insertionSort rankLE (finalData df)).Sorted rankLE :=
      List.sorted_insertionSort _ _
    have ht : (top20 df).Sorted rankLE :=
      List.Pairwise.sublist (List.take_sublist _ _) hs
    exact List.Pairwise.map Row.rank (fun a b hab => hab) ht

theorem summary_top20_shape_witness :
    (top20 sampleTable).length = min 20 (finalData sampleTable).length ∧
      ((top20 sampleTable).map Row.rank).Sorted (· ≤ ·) :=
  summary_top20_shape sampleTable (by decide)

/-- C6: in the summary's top-20 table, each row's percentage (line 257) is
frequency divided by the final iteration's total frequency sum times 100
when that sum is positive, and 0 when the sum is 0; in the division branch
the divisor is provably nonzero. -/
theorem pct_division_safe (df : List Row) (r : Row) (h : df ≠ []) :
    (0 < sumFreqFinal df →
        pctOf df r = (r.frequency : ℚ) / (sumFreqFinal df : ℚ) * 100 ∧
          (sumFreqFinal df : ℚ) ≠ 0) ∧
      (sumFreqFinal df = 0 → pctOf df r = 0) := by
  have hne : finalData df ≠ [] := finalData_ne_nil h
  have hlen : 0 < (finalData df).length := List.length_pos.mpr hne
  have htot : totalFreq df = sumFreqFinal df := by
    rw [totalFreq, if_pos hlen]; rfl
  constructor
  · intro hpos
    constructor
    · rw [pctOf, htot, if_pos hpos]
    · exact Int.cast_ne_zero.mpr (ne_of_gt hpos)
  · intro hz
    rw [pctOf, htot, hz, if_neg (lt_irrefl 0)]

theorem pct_division_safe_witness :
    (pctOf sampleTable ⟨2, "a", 6, 1, 4, 8, 3, 5⟩ =
        ((⟨2, "a", 6, 1, 4, 8, 3, 5⟩ : Row).frequency : ℚ) /
          (sumFreqFinal sampleTable : ℚ) * 100 ∧
      (sumFreqFinal sampleTable : ℚ) ≠ 0) :=
  (pct_division_safe sampleTable ⟨2, "a", 6, 1, 4, 8, 3, 5⟩ (by decide)).1 (by decide)

instance : IsRefl Int intGE := ⟨fun a => le_refl a⟩

theorem map_maxFreq_sorted_eq (df : List Row) :
    (List.insertionSort (freqGE df) (groupStrings df)).map (maxFreq df) = sortedMaxFreqs df := by
  apply List.eq_of_perm_of_sorted (r := intGE)
  · exact ((List.perm_insertionSort _ _).map _).trans (List.perm_insertionSort intGE _).symm
  · have hsL : (List.insertionSort (freqGE df) (groupStrings df)).Sorted (freqGE df) :=
      List.sorted_insertionSort _ _
    exact List.Pairwise.map (maxFreq df) (fun a b hab => hab) hsL
  · exact List.sorted_insertionSort _ _

/-- C4: the top-N selection used by the heatmap and rank-evolution
generators returns exactly `min(N, distinct-string-count)` distinct string
keys, and every selected key's maximum frequency over its own rows is at
least the Nth-largest per-string maximum-frequency value of the table. -/
theorem topN_selection (df : List Row) (n : Nat) :
    (topStrings df n).length = min n (groupStrings df).length ∧
      (topStrings df n).Nodup ∧
      ∀ s ∈ topStrings df n, ∀ hn : n - 1 < (sortedMaxFreqs df).length,
        (sortedMaxFreqs df).get ⟨n - 1, hn⟩ ≤ maxFreq df s := by
  refine ⟨?_, ?_, ?_⟩
  · rw [topStrings, List.length_take, List.length_insertionSort]
  · have h2 : (groupStrings df).Nodup :=
      (List.perm_insertionSort _ _).nodup_iff.mpr (List.nodup_dedup _)
    have h3 : (List.insertionSort (freqGE df) (groupStrings df)).Nodup :=
      (List.perm_insertionSort _ _).nodup_iff.mpr h2
    exact List.Nodup.sublist (List.take_sublist _ _) h3
  · intro s hs hn
    rw [topStrings] at hs
    set L := List.insertionSort (freqGE df) (groupStrings df) with hLdef
    obtain ⟨i, hieq⟩ := List.mem_iff_get.mp hs
    have hitake : (i : Nat) < (L.take n).length := i.isLt
    have hiL : (i : Nat) < L.length :=
      lt_of_lt_of_le hitake (by rw [List.length_take]; exact min_le_right _ _)
    have hin : (i : Nat) < n :=
      lt_of_lt_of_le hitake (by rw [List.length_take]; exact min_le_left _ _)
    have hvlen : (sortedMaxFreqs df).length = L.length := by
      rw [← map_maxFreq_sorted_eq df, List.length_map]
    have hn' : n - 1 < L.length := by rw [hvlen] at hn; exact hn
    have hfin1 : n - 1 < (L.map (maxFreq df)).length := by
      rw [List.length_map]; exact hn'
    have hfin2 : (i : Nat) < (L.map (maxFreq df)).length := by
      rw [List.length_map]; exact hiL
    have hsL : L.Sorted (freqGE df) := List.sorted_insertionSort _ _
    have hsortv : (L.map (maxFreq df)).Sorted intGE :=
      List.Pairwise.map (maxFreq df) (fun a b hab => hab) hsL
    have hrel : intGE ((L.map (maxFreq df)).get ⟨i, hfin2⟩)
        ((L.map (maxFreq df)).get ⟨n - 1, hfin1⟩) :=
      hsortv.rel_get_of_le (by simp only [Fin.mk_le_mk]; omega)
    have hgetmap1 : (L.map (maxFreq df)).get ⟨i, hfin2⟩ = maxFreq df (L.get ⟨i, hiL⟩) := by
      simp [List.get_eq_getElem]
    have hgets : L.get ⟨i, hiL⟩ = s := by
      rw [← hieq]
      simp [List.get_eq_getElem, List.getElem_take]
    have hgetmap2 : (L.map (maxFreq df)).get ⟨n - 1, hfin1⟩ =
        (sortedMaxFreqs df).get ⟨n - 1, hn⟩ := by
      have hmapeq : L.map (maxFreq df) = sortedMaxFreqs df := map_maxFreq_sorted_eq df
      simp only [List.get_eq_getElem]
      congr 1
    rw [hgetmap1, hgets, hgetmap2] at hrel
    exact hrel

theorem topN_selection_witness :
    ((topStrings sampleTable 1).length = min 1 (groupStrings sampleTable).length ∧
      (topStrings sampleTable 1).Nodup) ∧
      (sortedMaxFreqs sampleTable).get ⟨0, by decide⟩ ≤ maxFreq sampleTable "a" :=
  ⟨⟨(topN_selection sampleTable 1).1, (topN_selection sampleTable 1).2.1⟩,
    (topN_selection sampleTable 1).2.2 "a" (by decide) (by decide)⟩

theorem list_sum_of_all_eq {l : List ℚ} {v : ℚ} (h : ∀ x ∈ l, x = v) :
    l.sum = l.length * v := by
  induction l with
  | nil => simp
  | cons x xs ih =>
    rw [List.sum_cons, List.length_cons,
      ih (fun y hy => h y (List.mem_cons_of_mem _ hy)), h x (List.mem_cons_self _ _)]
    push_cast
    ring

theorem pivotCell_of_absent (D : List Row) (s : String) (i : Int)
    (habs : ∀ r ∈ D, ¬(r.string = s ∧ r.iteration = i)) : pivotCell D s i = 0 := by
  rw [pivotCell, if_pos]
  rw [pivotFreqs, List.map_eq_nil_iff, List.filter_eq_nil_iff]
  intro a ha
  simp only [decide_eq_true_eq]
  exact habs a ha

theorem pivotCell_of_present (D : List Row) (s : String) (i : Int) (r : Row)
    (hr : r ∈ D) (hs : r.string = s) (hi : r.iteration = i)
    (hagree : ∀ rr ∈ D, rr.string = s → rr.iteration = i → rr.frequency = r.frequency) :
    pivotCell D s i = (r.frequency : ℚ) := by
  have hrf : r ∈ D.filter (fun rr => decide (rr.string = s ∧ rr.iteration = i)) :=
    List.mem_filter.mpr ⟨hr, by simp [hs, hi]⟩
  have hmem : r.frequency ∈ pivotFreqs D s i := List.mem_map.mpr ⟨r, hrf, rfl⟩
  have hne : pivotFreqs D s i ≠ [] := List.ne_nil_of_mem hmem
  rw [pivotCell, if_neg hne]
  have hall : ∀ x ∈ (pivotFreqs D s i).map (fun q : Int => (q : ℚ)), x = (r.frequency : ℚ) := by
    intro x hx
    rcases List.mem_map.mp hx with ⟨q, hq, rfl⟩
    rcases List.mem_map.mp hq with ⟨rr, hrr, rfl⟩
    have h1 := List.mem_filter.mp hrr
    have h2 : rr.string = s ∧ rr.iteration = i := by
      simpa using h1.2
    exact congrArg (fun z : Int => (z : ℚ)) (hagree rr h1.1 h2.1 h2.2)
  rw [list_sum_of_all_eq hall, List.length_map]
  have hlen : ((pivotFreqs D s i).length : ℚ) ≠ 0 := by
    have hpos : 0 < (pivotFreqs D s i).length := List.length_pos.mpr hne
    exact Nat.cast_ne_zero.mpr (by omega)
  exact mul_div_cancel_left₀ _ hlen

/-- C2 is false as stated: on a table carrying two rows for the same
`(string, iteration)` pair with frequencies 2 and 4, the pivot cell holds
their mean 3, which is neither observed frequency, so reading the triples
back does not reproduce the filtered input. -/
theorem pivot_cell_not_observed :
    (⟨1, "s", 2, 1, 1, 1, 1, 0⟩ : Row) ∈ topFilter conflictingDupTable 30 ∧
      pivotCell (topFilter conflictingDupTable 30) "s" 1 ≠ ((2 : Int) : ℚ) ∧
      pivotCell (topFilter conflictingDupTable 30) "s" 1 ≠ ((4 : Int) : ℚ) ∧
      pivotCell (topFilter conflictingDupTable 30) "s" 1 = (3 : ℚ) := by
  have hfreqs : pivotFreqs (topFilter conflictingDupTable 30) "s" 1 = [2, 4] := by decide
  have hcell : pivotCell (topFilter conflictingDupTable 30) "s" 1 = (3 : ℚ) := by
    rw [pivotCell, hfreqs, if_neg (by decide)]
    norm_num
  refine ⟨by decide, ?_, ?_, hcell⟩
  · rw [hcell]; norm_num
  · rw [hcell]; norm_num

/-- C2 (amended): when the top-N-filtered rows never carry two different
frequencies for one `(string, iteration)` pair, the pivot matrix holds 0
at every absent cell and the observed frequency at every present cell, and
the `(string, iteration, frequency)` triples read back from present cells
are exactly those of the filtered input collapsed by `(string, iteration)`. -/
theorem pivot_roundtrip (df : List Row) (n : Nat)
    (hdup : ∀ r ∈ topFilter df n, ∀ rr ∈ topFilter df n,
      r.string = rr.string → r.iteration = rr.iteration → r.frequency = rr.frequency)
    (s : String) (i : Int) :
    ((∀ r ∈ topFilter df n, ¬(r.string = s ∧ r.iteration = i)) →
        pivotCell (topFilter df n) s i = 0) ∧
      ∀ q : ℚ,
        ((∃ r ∈ topFilter df n, r.string = s ∧ r.iteration = i ∧ (r.frequency : ℚ) = q) ↔
          ((∃ r ∈ topFilter df n, r.string = s ∧ r.iteration = i) ∧
            pivotCell (topFilter df n) s i = q)) := by
  refine ⟨pivotCell_of_absent _ _ _, ?_⟩
  intro q
  constructor
  · rintro ⟨r, hr, hs, hi, hq⟩
    refine ⟨⟨r, hr, hs, hi⟩, ?_⟩
    rw [pivotCell_of_present (topFilter df n) s i r hr hs hi
      (fun rr hrr hrs hri => hdup rr hrr r hr (hrs.trans hs.symm) (hri.trans hi.symm)), hq]
  · rintro ⟨⟨r, hr, hs, hi⟩, hcell⟩
    refine ⟨r, hr, hs, hi, ?_⟩
    rw [← hcell]
    exact (pivotCell_of_present (topFilter df n) s i r hr hs hi
      (fun rr hrr hrs hri => hdup rr hrr r hr (hrs.trans hs.symm) (hri.trans hi.symm))).symm

theorem pivot_roundtrip_witness :
    pivotCell (topFilter sampleTable 30) "a" 1 = ((5 : Int) : ℚ) :=
  (((pivot_roundtrip sampleTable 30
      (by decide) "a" 1).2 ((5 : Int) : ℚ)).mp
    ⟨⟨1, "a", 5, 1, 7, 9, 3, 2⟩, by decide, rfl, rfl, rfl⟩).2

/-- C3 is false as stated: in `doubledRowTable` the string `"s"` has two
rows at iteration 1 and none at iteration 2, so its row count (2) equals
the distinct-iteration count (2) and the code counts it as persistent,
although it does not appear in every distinct iteration. -/
theorem persistence_counts_row_multiplicity :
    persistentCount doubledRowTable = 1 ∧ inEveryIterationCount doubledRowTable = 0 ∧
      persistentCount doubledRowTable ≠ inEveryIterationCount doubledRowTable := by
  refine ⟨by decide, by decide, by decide⟩


theorem rowCount_iff_all_iterations (df : List Row) (s : String)
    (hdup : df.Pairwise (fun r rr => r.string = rr.string → r.iteration ≠ rr.iteration)) :
    rowCountOf df s = nSnapshots df ↔
      ∀ i ∈ (df.map Row.iteration).dedup, appearsAt df s i = true := by
  have hAsub : (df.filter (fun r => decide (r.string = s))).map Row.iteration ⊆
      (df.map Row.iteration).dedup := by
    intro a ha
    rcases List.mem_map.mp ha with ⟨r, hr, rfl⟩
    exact List.mem_dedup.mpr (List.mem_map.mpr ⟨r, List.mem_of_mem_filter hr, rfl⟩)
  have hAnodup : ((df.filter (fun r => decide (r.string = s))).map Row.iteration).Nodup := by
    have hpF : (df.filter (fun r => decide (r.string = s))).Pairwise
        (fun r rr => r.string = rr.string → r.iteration ≠ rr.iteration) :=
      List.Pairwise.sublist (List.filter_sublist df) hdup
    have hpF' : (df.filter (fun r => decide (r.string = s))).Pairwise
        (fun r rr => r.iteration ≠ rr.iteration) := by
      refine List.Pairwise.imp_of_mem (fun {a b} ha hb hr => ?_) hpF
      have has : a.string = s := by simpa using (List.mem_filter.mp ha).2
      have hbs : b.string = s := by simpa using (List.mem_filter.mp hb).2
      exact hr (has.trans hbs.symm)
    exact List.Pairwise.map Row.iteration (fun a b hne => hne) hpF'
  have hInodup : ((df.map Row.iteration).dedup).Nodup := List.nodup_dedup _
  have hcount : rowCountOf df s =
      ((df.filter (fun r => decide (r.string = s))).map Row.iteration).length := by
    rw [rowCountOf, List.length_map]
  have happ : ∀ i : Int, (appearsAt df s i = true ↔
      i ∈ (df.filter (fun r => decide (r.string = s))).map Row.iteration) := by
    intro i
    rw [appearsAt, List.any_eq_true]
    constructor
    · rintro ⟨r, hr, hdec⟩
      have h2 : r.string = s ∧ r.iteration = i := by simpa using hdec
      exact List.mem_map.mpr ⟨r, List.mem_filter.mpr ⟨hr, by simp [h2.1]⟩, h2.2⟩
    · intro hi
      rcases List.mem_map.mp hi with ⟨r, hr, rfl⟩
      have h1 := List.mem_filter.mp hr
      refine ⟨r, h1.1, ?_⟩
      have hrs : r.string = s := by simpa using h1.2
      simp [hrs]
  have hsubF : ((df.filter (fun r => decide (r.string = s))).map Row.iteration).toFinset ⊆
      ((df.map Row.iteration).dedup).toFinset :=
    fun x hx => List.mem_toFinset.mpr (hAsub (List.mem_toFinset.mp hx))
  constructor
  · intro hlen i hiI
    rw [happ i]
    have hlen' : ((df.filter (fun r => decide (r.string = s))).map Row.iteration).length =
        ((df.map Row.iteration).dedup).length := by
      rw [← hcount, hlen, nSnapshots]
    have hcards : ((df.map Row.iteration).dedup).toFinset.card ≤
        ((df.filter (fun r => decide (r.string = s))).map Row.iteration).toFinset.card := by
      rw [List.toFinset_card_of_nodup hAnodup, List.toFinset_card_of_nodup hInodup]
      exact le_of_eq hlen'.symm
    have heq := Finset.eq_of_subset_of_card_le hsubF hcards
    rw [← List.mem_toFinset, ← heq, List.mem_toFinset] at hiI
    exact hiI
  · intro hall
    have hIsubA : (df.map Row.iteration).dedup ⊆
        (df.filter (fun r => decide (r.string = s))).map Row.iteration :=
      fun i hi => (happ i).mp (hall i hi)
    have hsubF' : ((df.map Row.iteration).dedup).toFinset ⊆
        ((df.filter (fun r => decide (r.string = s))).map Row.iteration).toFinset :=
      fun x hx => List.mem_toFinset.mpr (hIsubA (List.mem_toFinset.mp hx))
    have heq : ((df.filter (fun r => decide (r.string = s))).map Row.iteration).toFinset =
        ((df.map Row.iteration).dedup).toFinset := Finset.Subset.antisymm hsubF hsubF'
    rw [hcount, nSnapshots, ← List.toFinset_card_of_nodup hAnodup,
      ← List.toFinset_card_of_nodup hInodup, heq]

/-- C3 (amended): the summary's persistence count is the number of distinct
string keys whose row count equals the distinct-iteration count; when the
table carries at most one row per `(string, iteration)` pair this is
exactly the number of distinct strings present in every distinct
iteration, as the spec describes. -/
theorem persistence_vs_every_iteration (df : List Row)
    (hdup : df.Pairwise (fun r rr => r.string = rr.string → r.iteration ≠ rr.iteration)) :
    persistentCount df = inEveryIterationCount df := by
  rw [persistentCount, inEveryIterationCount]
  congr 1
  apply List.filter_congr
  intro s hs
  apply Bool.eq_iff_iff.mpr
  rw [decide_eq_true_eq, List.all_eq_true]
  exact rowCount_iff_all_iterations df s hdup

theorem persistence_vs_every_iteration_witness :
    persistentCount sampleTable = inEveryIterationCount sampleTable :=
  persistence_vs_every_iteration sampleTable (by decide)
